import Mathlib

/-!
Verification of the Caesar-cipher repository (two Go files:
`Cipher/go.go` and `Decipher/go.go`) against its specification.

Embedding conventions:
* Go strings are modelled as `List Char` (Go iterates strings rune by
  rune with `for _, char := range s`, which is exactly a traversal of
  the list of code points).  Go's `len(s)` on a string is the UTF-8
  byte length; it is modelled by `utf8Len` (sum of `Char.utf8Size`).
* Go's `%` on `int` is truncated remainder, modelled by `Int.tmod`.
* `float64` scores are modelled over `ℚ`: every value the scorer can
  produce (integer word counts, the flat 2.0 bonus, the sentinel -1.0)
  is exactly representable, and the two ratio comparisons against the
  literals 0.1 and 0.25 agree with exact rational comparison for every
  realizable string length.  Division by a zero length, which in Go
  yields NaN and makes both comparisons false, here yields `0` in `ℚ`
  and likewise makes both comparisons false.
* `strings.ToUpper` and `unicode.IsSpace` are modelled on the
  ASCII/Latin-1 fragment that the cipher and the scorer can actually
  distinguish (the scorer strips every character outside A–Z after
  upper-casing, so case mappings of non-ASCII letters are irrelevant
  to all scores).
-/

namespace Caesar

set_option maxRecDepth 8192

/-- Shift normalization shared by `applyCipher` (Cipher/go.go lines
16-19) and `decipherWithShift` (Decipher/go.go lines 20-23):
`shift = shift % 26; if shift < 0 { shift += 26 }` with Go's truncated
remainder. -/
def normalizeShift (shift : Int) : Int :=
  let s := Int.tmod shift 26
  if s < 0 then s + 26 else s

/-- The per-character body shared verbatim by the loops of
`applyCipher` (Cipher/go.go lines 22-35) and `decipherWithShift`
(Decipher/go.go lines 29-42): uppercase letters rotate inside A-Z,
lowercase letters rotate inside a-z, and every other character is
copied unchanged.  `k` is the (already normalized, non-negative)
shift amount. -/
def cipherChar (k : Nat) (c : Char) : Char :=
  if 'A' ≤ c ∧ c ≤ 'Z' then
    Char.ofNat ('A'.toNat + (c.toNat - 'A'.toNat + k) % 26)
  else if 'a' ≤ c ∧ c ≤ 'z' then
    Char.ofNat ('a'.toNat + (c.toNat - 'a'.toNat + k) % 26)
  else c

/-- `applyCipher` from Cipher/go.go lines 11-38. -/
def applyCipher (plaintext : List Char) (shift : Int) : List Char :=
  let k := (normalizeShift shift).toNat
  plaintext.map (cipherChar k)

/-- `decipherWithShift` from Decipher/go.go lines 15-45: normalize the
shift, then `shift = 26 - shift` (line 26) and run the same
per-character loop as `applyCipher`. -/
def decipherWithShift (ciphertext : List Char) (shift : Int) : List Char :=
  let k := (26 - normalizeShift shift).toNat
  ciphertext.map (cipherChar k)

/-- Uppercase ASCII letter test `r >= 'A' && r <= 'Z'`. -/
def isUpperAlpha (c : Char) : Bool :=
  decide ('A' ≤ c) && decide (c ≤ 'Z')

/-- Lowercase ASCII letter test `r >= 'a' && r <= 'z'`. -/
def isLowerAlpha (c : Char) : Bool :=
  decide ('a' ≤ c) && decide (c ≤ 'z')

/-- ASCII fragment of Go's `strings.ToUpper` (Decipher/go.go lines 52
and 99): lowercase ASCII letters are mapped to uppercase, everything
else is returned unchanged.  (Go also case-maps non-ASCII letters, but
no non-ASCII character can become an ASCII letter A-Z under a case
mapping that matters here: every consumer of the upper-cased text
immediately discards all characters outside A-Z or splits on
whitespace, except for the two exotic code points U+0131 and U+017F
which do not occur in any statement below.) -/
def toUpperGo (c : Char) : Char :=
  if 'a' ≤ c ∧ c ≤ 'z' then Char.ofNat (c.toNat - 32) else c

/-- Latin-1 fragment of Go's `unicode.IsSpace`, the separator class of
`strings.Fields`: space, tab, newline, vertical tab, form feed,
carriage return, NEL and NBSP. -/
def isSpaceGo (c : Char) : Bool :=
  decide (c = ' ') || (decide ('\t' ≤ c) && decide (c.toNat ≤ 13)) ||
    decide (c.toNat = 0x85) || decide (c.toNat = 0xA0)

/-- Go's `strings.Fields` (Decipher/go.go line 99): the maximal runs
of non-whitespace characters, in order. -/
def fields (s : List Char) : List (List Char) :=
  (s.splitOnP isSpaceGo).filter (fun w => !w.isEmpty)

/-- The word-cleaning step of the scorer (Decipher/go.go lines
103-108): `strings.Map` keeping only A-Z and dropping every other
character. -/
def cleanWord (w : List Char) : List Char :=
  w.filter isUpperAlpha

/-- The fixed `commonWords` lookup set of the scorer (Decipher/go.go
lines 91-96), as the list of its 20 keys. -/
def commonWordList : List (List Char) :=
  ["THE".toList, "BE".toList, "TO".toList, "OF".toList, "AND".toList,
   "A".toList, "IN".toList, "THAT".toList, "HAVE".toList, "I".toList,
   "IT".toList, "FOR".toList, "NOT".toList, "ON".toList, "WITH".toList,
   "HE".toList, "AS".toList, "YOU".toList, "DO".toList, "AT".toList]

/-- Go's `len` on a string: the UTF-8 byte length. -/
def utf8Len (s : List Char) : Nat :=
  (s.map Char.utf8Size).sum

/-- `scoreDecipheredText` from Decipher/go.go lines 89-123: one point
per whitespace-separated token of the upper-cased text that, cleaned
of non-letters, is one of the 20 common words; plus a flat bonus of 2
when `spaceCount / len(text)` lies strictly between 0.1 and 0.25,
where `spaceCount` counts literal spaces of the original text and
`len` is its byte length.  The float comparison
`spaceRatio > 0.1 && spaceRatio < 0.25` is transcribed division-free
as `10*spaceCount > len ∧ 4*spaceCount < len`, which is exactly
equivalent for `len > 0` and, like Go's NaN comparisons, false for
`len = 0`. -/
def scoreDecipheredText (text : List Char) : ℚ :=
  let words := fields (text.map toUpperGo)
  let score : ℚ :=
    words.foldl
      (fun sc word => if commonWordList.contains (cleanWord word) then sc + 1 else sc) 0
  let spaceCount := text.countP (fun c => decide (c = ' '))
  if 10 * spaceCount > utf8Len text ∧ 4 * spaceCount < utf8Len text then score + 2
  else score

/-- The list of shifts `0, 1, ..., 25` scanned by the loop
`for shift := 0; shift < 26; shift++` (Decipher/go.go line 132). -/
def shiftRange : List Int :=
  (List.range 26).map (fun n : Nat => (n : Int))

/-- One iteration of the best-candidate loops (Decipher/go.go lines
133-140 and 192-199): decipher with the shift, score the candidate,
and replace the running best exactly when the score is strictly
greater. -/
def bfStep (ciphertext : List Char) (acc : ℚ × Int × List Char) (shift : Int) :
    ℚ × Int × List Char :=
  let plaintext := decipherWithShift ciphertext shift
  let score := scoreDecipheredText plaintext
  if acc.1 < score then (score, shift, plaintext) else acc

/-- The shared search skeleton of both breakers: fold `bfStep` over a
list of candidate shifts starting from the sentinel state
`bestScore = -1.0, bestShift = 0, bestPlaintext = ""`. -/
def runSearch (ciphertext : List Char) (shifts : List Int) : ℚ × Int × List Char :=
  shifts.foldl (bfStep ciphertext) ((-1 : ℚ), (0 : Int), ([] : List Char))

/-- `breakCipherBruteForce` from Decipher/go.go lines 126-144: scan
shifts 0..25 in ascending order and return `(bestPlaintext, bestShift)`. -/
def breakCipherBruteForce (ciphertext : List Char) : List Char × Int :=
  let r := runSearch ciphertext shiftRange
  (r.2.2, r.2.1)

/-- The letters-only extraction of `breakCipherFrequencyAnalysis`
(Decipher/go.go lines 149-154): keep exactly the ASCII letters. -/
def lettersOnly (s : List Char) : List Char :=
  s.filter (fun r => isUpperAlpha r || isLowerAlpha r)

/-- `calculateFrequencies` from Decipher/go.go lines 48-59, as the
counting function of the map it builds: the number of occurrences of
`c` among the upper-cased ASCII letters of `text`. -/
def calculateFrequencies (text : List Char) (c : Char) : Nat :=
  ((text.map toUpperGo).filter isUpperAlpha).count c

/-- The preferred shift of the frequency heuristic (Decipher/go.go
lines 175-179): `eShift := (mostCommon - 'E') % 26; if eShift < 0 {
eShift += 26 }` — the same normalization pattern as `normalizeShift`. -/
def eShiftOf (mostCommon : Char) : Int :=
  normalizeShift ((mostCommon.toNat : Int) - ('E'.toNat : Int))

/-- The candidate list of `breakCipherFrequencyAnalysis`
(Decipher/go.go lines 171-188): the preferred shift first (the list is
never empty on the branch that builds it, since at least 5 letters are
present), then every shift 0..25 whose value differs from
`potentialShifts[0]`. -/
def potentialShifts (mostCommon : Char) : List Int :=
  let e := eShiftOf mostCommon
  e :: shiftRange.filter (fun shift => decide (shift ≠ e))

/-- `breakCipherFrequencyAnalysis` from Decipher/go.go lines 147-203,
parameterized by `mostCommon`, the first letter of the frequency order
`freqOrder[0]` (line 175).  Go builds `freqOrder` by an unstable
`sort.Slice` over a randomized map iteration, so when several letters
are tied for the maximal count any of them can come first; every
theorem below therefore quantifies over all values of `mostCommon`,
covering each resolution of that nondeterminism.  With fewer than 5
letters the function delegates to brute force (lines 156-159) and
`mostCommon` is irrelevant. -/
def breakCipherFrequencyAnalysisWith (ciphertext : List Char) (mostCommon : Char) :
    List Char × Int :=
  if (lettersOnly ciphertext).length < 5 then
    breakCipherBruteForce ciphertext
  else
    let r := runSearch ciphertext (potentialShifts mostCommon)
    (r.2.2, r.2.1)

/-- The score a given shift earns on a ciphertext: the score of the
corresponding deciphering. -/
def shiftScore (ciphertext : List Char) (s : Int) : ℚ :=
  scoreDecipheredText (decipherWithShift ciphertext s)

/-- The maximum score over the 26 shifts (folded from the sentinel
-1.0, which every real score exceeds). -/
def maxShiftScore (ciphertext : List Char) : ℚ :=
  ((shiftRange.map (shiftScore ciphertext)).foldl max (-1))

/-- Modelled from the claim's words for comparison with the code's
scorer: identical token scoring, but the space ratio divides by the
total character count `text.length` of the original text, as the
specification states, rather than by Go's byte length `len(text)`. -/
def scoreSpecCharCount (text : List Char) : ℚ :=
  let toks := fields (text.map toUpperGo)
  let base : ℚ := (toks.countP (fun w => commonWordList.contains (cleanWord w)) : ℚ) * 1
  let spaceCount := text.countP (fun c => decide (c = ' '))
  base + (if 10 * spaceCount > text.length ∧ 4 * spaceCount < text.length then 2 else 0)

/-- The claim's scorer formula with the denominator the code actually
uses: the UTF-8 byte count of the original text. -/
def scoreSpecByteCount (text : List Char) : ℚ :=
  let toks := fields (text.map toUpperGo)
  let base : ℚ := (toks.countP (fun w => commonWordList.contains (cleanWord w)) : ℚ) * 1
  let spaceCount := text.countP (fun c => decide (c = ' '))
  base + (if 10 * spaceCount > utf8Len text ∧ 4 * spaceCount < utf8Len text then 2 else 0)

/-! Basic facts about characters and shift normalization. -/

theorem char_toNat_le_of_le {c d : Char} (h : c ≤ d) : c.toNat ≤ d.toNat := h

theorem char_le_of_toNat_le {c d : Char} (h : c.toNat ≤ d.toNat) : c ≤ d := h

theorem upper_range {c : Char} (h : 'A' ≤ c ∧ c ≤ 'Z') : 65 ≤ c.toNat ∧ c.toNat ≤ 90 :=
  ⟨h.1, h.2⟩

theorem upper_of_range {c : Char} (h1 : 65 ≤ c.toNat) (h2 : c.toNat ≤ 90) :
    'A' ≤ c ∧ c ≤ 'Z' :=
  ⟨h1, h2⟩

theorem lower_range {c : Char} (h : 'a' ≤ c ∧ c ≤ 'z') : 97 ≤ c.toNat ∧ c.toNat ≤ 122 :=
  ⟨h.1, h.2⟩

theorem lower_of_range {c : Char} (h1 : 97 ≤ c.toNat) (h2 : c.toNat ≤ 122) :
    'a' ≤ c ∧ c ≤ 'z' :=
  ⟨h1, h2⟩

theorem char_toNat_ofNat_valid {m : Nat} (h : m < 55296) : (Char.ofNat m).toNat = m := by
  have hv : m.isValidChar := Or.inl h
  rw [Char.ofNat, dif_pos hv]
  rfl

theorem char_eq_of_toNat_eq {c d : Char} (h : c.toNat = d.toNat) : c = d := by
  rw [← Char.ofNat_toNat c, ← Char.ofNat_toNat d, h]

theorem neg_tmod_left (a b : Int) : Int.tmod (-a) b = -Int.tmod a b := by
  rw [Int.tmod_def, Int.tmod_def, Int.neg_tdiv]
  ring

theorem normalizeShift_eq_emod (s : Int) : normalizeShift s = s % 26 := by
  have hnf : normalizeShift s =
      if Int.tmod s 26 < 0 then Int.tmod s 26 + 26 else Int.tmod s 26 := rfl
  rw [hnf]
  rcases le_or_lt 0 s with hs | hs
  · rw [Int.tmod_eq_emod hs (by norm_num)]
    split_ifs <;> omega
  · have h1 : Int.tmod s 26 = -Int.tmod (-s) 26 := by
      rw [← neg_tmod_left, neg_neg]
    have h2 : Int.tmod (-s) 26 = (-s) % 26 := Int.tmod_eq_emod (by omega) (by norm_num)
    rw [h1, h2]
    split_ifs <;> omega

theorem normalizeShift_bounds (s : Int) : 0 ≤ normalizeShift s ∧ normalizeShift s < 26 := by
  rw [normalizeShift_eq_emod]
  exact ⟨Int.emod_nonneg s (by norm_num), Int.emod_lt_of_pos s (by norm_num)⟩

/-! Per-character behaviour of the shared cipher loop body. -/

theorem cipherChar_toNat_upper {c : Char} (h : 'A' ≤ c ∧ c ≤ 'Z') (k : Nat) :
    (cipherChar k c).toNat = 65 + (c.toNat - 65 + k) % 26 := by
  have h65 : ('A').toNat = 65 := rfl
  rw [cipherChar, if_pos h, h65]
  exact char_toNat_ofNat_valid (by omega)

theorem cipherChar_toNat_lower {c : Char} (hu : ¬('A' ≤ c ∧ c ≤ 'Z'))
    (h : 'a' ≤ c ∧ c ≤ 'z') (k : Nat) :
    (cipherChar k c).toNat = 97 + (c.toNat - 97 + k) % 26 := by
  have h97 : ('a').toNat = 97 := rfl
  rw [cipherChar, if_neg hu, if_pos h, h97]
  exact char_toNat_ofNat_valid (by omega)

theorem cipherChar_other {c : Char} (hu : ¬('A' ≤ c ∧ c ≤ 'Z'))
    (hl : ¬('a' ≤ c ∧ c ≤ 'z')) (k : Nat) : cipherChar k c = c := by
  rw [cipherChar, if_neg hu, if_neg hl]

theorem cipherChar_inv (k : Nat) (hk : k ≤ 25) (c : Char) :
    cipherChar (26 - k) (cipherChar k c) = c := by
  by_cases hu : 'A' ≤ c ∧ c ≤ 'Z'
  · obtain ⟨hc1, hc2⟩ := upper_range hu
    have ht : (cipherChar k c).toNat = 65 + (c.toNat - 65 + k) % 26 :=
      cipherChar_toNat_upper hu k
    have hu' : 'A' ≤ cipherChar k c ∧ cipherChar k c ≤ 'Z' :=
      upper_of_range (by omega) (by omega)
    apply char_eq_of_toNat_eq
    rw [cipherChar_toNat_upper hu' (26 - k), ht]
    omega
  · by_cases hl : 'a' ≤ c ∧ c ≤ 'z'
    · obtain ⟨hc1, hc2⟩ := lower_range hl
      have ht : (cipherChar k c).toNat = 97 + (c.toNat - 97 + k) % 26 :=
        cipherChar_toNat_lower hu hl k
      have hu' : ¬('A' ≤ cipherChar k c ∧ cipherChar k c ≤ 'Z') := by
        intro hcon
        have := (upper_range hcon).2
        omega
      have hl' : 'a' ≤ cipherChar k c ∧ cipherChar k c ≤ 'z' :=
        lower_of_range (by omega) (by omega)
      apply char_eq_of_toNat_eq
      rw [cipherChar_toNat_lower hu' hl' (26 - k), ht]
      omega
    · rw [cipherChar_other hu hl, cipherChar_other hu hl]

theorem cipherChar_congr {k k' : Nat} (h : k % 26 = k' % 26) (c : Char) :
    cipherChar k c = cipherChar k' c := by
  unfold cipherChar
  by_cases hu : 'A' ≤ c ∧ c ≤ 'Z'
  · rw [if_pos hu, if_pos hu]
    congr 1
    omega
  · by_cases hl : 'a' ≤ c ∧ c ≤ 'z'
    · rw [if_neg hu, if_pos hl, if_neg hu, if_pos hl]
      congr 1
      omega
    · rw [if_neg hu, if_neg hl, if_neg hu, if_neg hl]

/-- C1: Round-trip — for every text and every integer shift (negative
and large shifts included), deciphering the enciphered text with the
same shift restores the original text. -/
theorem decipher_applyCipher_roundtrip (T : List Char) (s : Int) :
    decipherWithShift (applyCipher T s) s = T := by
  unfold applyCipher decipherWithShift
  have hb := normalizeShift_bounds s
  have hk : (normalizeShift s).toNat ≤ 25 := by omega
  have hk2 : (26 - normalizeShift s).toNat = 26 - (normalizeShift s).toNat := by omega
  rw [List.map_map, hk2]
  have hfun : cipherChar (26 - (normalizeShift s).toNat) ∘
      cipherChar (normalizeShift s).toNat = id := by
    funext c
    exact cipherChar_inv _ hk c
  rw [hfun, List.map_id]

/-- C3: Decoding is encoding with the complementary shift — for every
text and every integer shift `s`, `decipherWithShift text s` equals
`applyCipher text ((26 - s % 26) % 26)` (with the mathematical,
nonnegative `%`). -/
theorem decipher_eq_applyCipher_complement (text : List Char) (s : Int) :
    decipherWithShift text s = applyCipher text ((26 - s % 26) % 26) := by
  unfold applyCipher decipherWithShift
  apply List.map_congr_left
  intro c _
  apply cipherChar_congr
  have h1 : normalizeShift s = s % 26 := normalizeShift_eq_emod s
  have h2 : normalizeShift ((26 - s % 26) % 26) = ((26 - s % 26) % 26) % 26 :=
    normalizeShift_eq_emod _
  have h3 : 0 ≤ s % 26 := Int.emod_nonneg s (by norm_num)
  have h4 : s % 26 < 26 := Int.emod_lt_of_pos s (by norm_num)
  have h5 : 0 ≤ (26 - s % 26) % 26 := Int.emod_nonneg _ (by norm_num)
  have h6 : (26 - s % 26) % 26 < 26 := Int.emod_lt_of_pos _ (by norm_num)
  have h7 : (26 - s % 26) % 26 = (26 - s % 26) - 26 * ((26 - s % 26) / 26) := by
    rw [Int.emod_def]
  rw [h1, h2]
  omega

/-- C8: Shape preservation — enciphering keeps the length, maps
uppercase letters to uppercase letters and lowercase letters to
lowercase letters, and leaves every non-letter character unchanged at
its position. -/
theorem applyCipher_shape_preservation (t : List Char) (s : Int) :
    (applyCipher t s).length = t.length ∧
    List.Forall₂ (fun c d =>
      (isUpperAlpha c = true → isUpperAlpha d = true) ∧
      (isLowerAlpha c = true → isLowerAlpha d = true) ∧
      (isUpperAlpha c = false → isLowerAlpha c = false → d = c))
      t (applyCipher t s) := by
  constructor
  · exact List.length_map t _
  · unfold applyCipher
    rw [List.forall₂_map_right_iff, List.forall₂_same]
    intro c _
    refine ⟨?_, ?_, ?_⟩
    · intro hcu
      have hu : 'A' ≤ c ∧ c ≤ 'Z' := by
        simpa [isUpperAlpha] using hcu
      obtain ⟨h1, h2⟩ := upper_range hu
      have ht := cipherChar_toNat_upper hu (normalizeShift s).toNat
      have hres := upper_of_range (c := cipherChar (normalizeShift s).toNat c)
        (by omega) (by omega)
      simp only [isUpperAlpha, Bool.and_eq_true, decide_eq_true_eq]
      exact hres
    · intro hcl
      have hl : 'a' ≤ c ∧ c ≤ 'z' := by
        simpa [isLowerAlpha] using hcl
      obtain ⟨h1, h2⟩ := lower_range hl
      have hu : ¬('A' ≤ c ∧ c ≤ 'Z') := by
        intro hcon
        have := (upper_range hcon).2
        omega
      have ht := cipherChar_toNat_lower hu hl (normalizeShift s).toNat
      have hres := lower_of_range (c := cipherChar (normalizeShift s).toNat c)
        (by omega) (by omega)
      simp only [isLowerAlpha, Bool.and_eq_true, decide_eq_true_eq]
      exact hres
    · intro hcu hcl
      apply cipherChar_other
      · intro hcon
        simp [isUpperAlpha, hcon.1, hcon.2] at hcu
      · intro hcon
        simp [isLowerAlpha, hcon.1, hcon.2] at hcl

/-- Witness for C8 at a concrete input containing an uppercase letter,
a lowercase letter, a digit and punctuation. -/
theorem applyCipher_shape_preservation_witness :
    (applyCipher "Az!9".toList 3).length = "Az!9".toList.length ∧
    List.Forall₂ (fun c d =>
      (isUpperAlpha c = true → isUpperAlpha d = true) ∧
      (isLowerAlpha c = true → isLowerAlpha d = true) ∧
      (isUpperAlpha c = false → isLowerAlpha c = false → d = c))
      "Az!9".toList (applyCipher "Az!9".toList 3) :=
  applyCipher_shape_preservation "Az!9".toList 3

/-! Unfolding equations for the definitions that use local bindings. -/

theorem scoreDecipheredText_def (text : List Char) :
    scoreDecipheredText text =
      (if 10 * text.countP (fun c => decide (c = ' ')) > utf8Len text ∧
          4 * text.countP (fun c => decide (c = ' ')) < utf8Len text
       then ((fields (text.map toUpperGo)).foldl
          (fun sc word => if commonWordList.contains (cleanWord word) then sc + 1 else sc)
          0) + 2
       else ((fields (text.map toUpperGo)).foldl
          (fun sc word => if commonWordList.contains (cleanWord word) then sc + 1 else sc)
          0)) := rfl

theorem scoreSpecCharCount_def (text : List Char) :
    scoreSpecCharCount text =
      ((fields (text.map toUpperGo)).countP
          (fun w => commonWordList.contains (cleanWord w)) : ℚ) * 1 +
        (if 10 * text.countP (fun c => decide (c = ' ')) > text.length ∧
            4 * text.countP (fun c => decide (c = ' ')) < text.length
         then 2 else 0) := rfl

theorem scoreSpecByteCount_def (text : List Char) :
    scoreSpecByteCount text =
      ((fields (text.map toUpperGo)).countP
          (fun w => commonWordList.contains (cleanWord w)) : ℚ) * 1 +
        (if 10 * text.countP (fun c => decide (c = ' ')) > utf8Len text ∧
            4 * text.countP (fun c => decide (c = ' ')) < utf8Len text
         then 2 else 0) := rfl

theorem bfStep_def (ciphertext : List Char) (acc : ℚ × Int × List Char) (shift : Int) :
    bfStep ciphertext acc shift =
      if acc.1 < shiftScore ciphertext shift
      then (shiftScore ciphertext shift, shift, decipherWithShift ciphertext shift)
      else acc := rfl

theorem runSearch_def (ciphertext : List Char) (shifts : List Int) :
    runSearch ciphertext shifts =
      shifts.foldl (bfStep ciphertext) ((-1 : ℚ), (0 : Int), ([] : List Char)) := rfl

theorem breakCipherBruteForce_def (ciphertext : List Char) :
    breakCipherBruteForce ciphertext =
      ((runSearch ciphertext shiftRange).2.2, (runSearch ciphertext shiftRange).2.1) := rfl

theorem potentialShifts_def (m : Char) :
    potentialShifts m =
      eShiftOf m :: shiftRange.filter (fun shift => decide (shift ≠ eShiftOf m)) := rfl

theorem breakFreq_def (ciphertext : List Char) (m : Char) :
    breakCipherFrequencyAnalysisWith ciphertext m =
      if (lettersOnly ciphertext).length < 5 then breakCipherBruteForce ciphertext
      else ((runSearch ciphertext (potentialShifts m)).2.2,
            (runSearch ciphertext (potentialShifts m)).2.1) := rfl

/-! The scorer: monotone accumulation, nonnegativity, and the
count formulation. -/

theorem foldl_score_ge (ws : List (List Char)) (a : ℚ) :
    a ≤ ws.foldl
      (fun sc word => if commonWordList.contains (cleanWord word) then sc + 1 else sc) a := by
  induction ws generalizing a with
  | nil => exact le_refl a
  | cons w t ih =>
    rw [List.foldl_cons]
    refine le_trans ?_ (ih _)
    split_ifs
    · linarith
    · exact le_refl a

theorem foldl_score_eq_countP (ws : List (List Char)) (a : ℚ) :
    ws.foldl
      (fun sc word => if commonWordList.contains (cleanWord word) then sc + 1 else sc) a =
      a + (ws.countP (fun w => commonWordList.contains (cleanWord w)) : ℚ) := by
  induction ws generalizing a with
  | nil => simp
  | cons w t ih =>
    rw [List.foldl_cons, List.countP_cons]
    split_ifs with h
    · rw [ih]
      simp [h]
      ring
    · rw [ih]
      simp [h]

theorem scoreDecipheredText_nonneg (t : List Char) : 0 ≤ scoreDecipheredText t := by
  rw [scoreDecipheredText_def]
  have h := foldl_score_ge (fields (t.map toUpperGo)) 0
  split_ifs
  · linarith
  · exact h

theorem shiftScore_nonneg (ct : List Char) (s : Int) : 0 ≤ shiftScore ct s :=
  scoreDecipheredText_nonneg _

/-- C4 counterexample: the claim's space-ratio denominator (character
count) disagrees with the code's (byte count) on a non-ASCII text.
The text of four euro signs and one space has 5 characters, so the
claim's ratio is 1/5 and awards the bonus, but its byte length is 13,
so the code's ratio is 1/13 and the code awards nothing. -/
theorem scorer_char_count_counterexample :
    ¬ (scoreDecipheredText "€€€€ ".toList = scoreSpecCharCount "€€€€ ".toList) := by
  have h1 : scoreDecipheredText "€€€€ ".toList = 0 := by decide
  have h2 : ((fields ("€€€€ ".toList.map toUpperGo)).countP
      (fun w => commonWordList.contains (cleanWord w))) = 0 := by decide
  have h3 : 10 * "€€€€ ".toList.countP (fun c => decide (c = ' ')) >
      "€€€€ ".toList.length ∧
      4 * "€€€€ ".toList.countP (fun c => decide (c = ' ')) <
      "€€€€ ".toList.length := by decide
  rw [h1, scoreSpecCharCount_def, h2, if_pos h3]
  norm_num

/-- C4 (amended): the scorer returns the common-word token count times
1.0 plus a flat 2.0 bonus exactly when the space ratio — spaces divided
by the UTF-8 byte count of the original text, which is the character
count whenever the text is ASCII — lies strictly between 0.10 and 0.25. -/
theorem scorer_definition_byte_count (text : List Char) :
    scoreDecipheredText text = scoreSpecByteCount text := by
  rw [scoreDecipheredText_def, scoreSpecByteCount_def, foldl_score_eq_countP]
  split_ifs
  · ring
  · ring

/-- C7: Empty-input behaviour — enciphering the empty text gives the
empty text for every shift, the scorer returns 0 on the empty text
without any space bonus (the zero-length division awards nothing), and
brute force on the empty text returns the pair (empty text, shift 0). -/
theorem empty_input_behaviour (s : Int) :
    applyCipher [] s = [] ∧ scoreDecipheredText [] = 0 ∧
    breakCipherBruteForce [] = ([], 0) :=
  ⟨rfl, by decide, by set_option maxRecDepth 4096 in decide⟩

/-- C10: Implicit score lower bound — every score is at least 0 (hence
strictly above the -1.0 sentinel), so the first shift either search
evaluates always replaces the initial sentinel state. -/
theorem score_nonneg_first_step_replaces (t ct : List Char) (s : Int) :
    0 ≤ scoreDecipheredText t ∧
    bfStep ct ((-1 : ℚ), (0 : Int), ([] : List Char)) s =
      (shiftScore ct s, s, decipherWithShift ct s) := by
  refine ⟨scoreDecipheredText_nonneg t, ?_⟩
  rw [bfStep_def]
  rw [if_pos]
  have h := shiftScore_nonneg ct s
  simp only []
  linarith

/-! The best-candidate fold: its result is the first strict-improvement
maximum of the scanned shift list. -/

theorem foldl_bfStep_spec (ct : List Char) (l : List Int) :
    ∀ acc : ℚ × Int × List Char,
      (List.foldl (bfStep ct) acc l = acc ∧ ∀ x ∈ l, shiftScore ct x ≤ acc.1) ∨
      (∃ l1 s0 l2, l = l1 ++ s0 :: l2 ∧
        List.foldl (bfStep ct) acc l = (shiftScore ct s0, s0, decipherWithShift ct s0) ∧
        acc.1 < shiftScore ct s0 ∧
        (∀ x ∈ l1, shiftScore ct x < shiftScore ct s0) ∧
        (∀ x ∈ l2, shiftScore ct x ≤ shiftScore ct s0)) := by
  induction l with
  | nil =>
    intro acc
    left
    exact ⟨rfl, by simp⟩
  | cons a t ih =>
    intro acc
    rw [List.foldl_cons]
    by_cases h : acc.1 < shiftScore ct a
    · have hstep : bfStep ct acc a = (shiftScore ct a, a, decipherWithShift ct a) := by
        rw [bfStep_def, if_pos h]
      rcases ih (bfStep ct acc a) with ⟨heq, hb⟩ | ⟨l1, s0, l2, hsplit, hres, hacc, h1, h2⟩
      · right
        refine ⟨[], a, t, by simp, ?_, h, by simp, ?_⟩
        · rw [heq, hstep]
        · intro x hx
          have hb' := hb x hx
          rw [hstep] at hb'
          simpa using hb'
      · right
        rw [hstep] at hacc
        simp only [] at hacc
        refine ⟨a :: l1, s0, l2, by rw [hsplit, List.cons_append], hres, lt_trans h hacc, ?_, h2⟩
        intro x hx
        rcases List.mem_cons.mp hx with rfl | hx'
        · exact hacc
        · exact h1 x hx'
    · have hstep : bfStep ct acc a = acc := by
        rw [bfStep_def, if_neg h]
      rw [hstep]
      rcases ih acc with ⟨heq, hb⟩ | ⟨l1, s0, l2, hsplit, hres, hacc, h1, h2⟩
      · left
        refine ⟨heq, ?_⟩
        intro x hx
        rcases List.mem_cons.mp hx with rfl | hx'
        · exact not_lt.mp h
        · exact hb x hx'
      · right
        refine ⟨a :: l1, s0, l2, by rw [hsplit, List.cons_append], hres, hacc, ?_, h2⟩
        intro x hx
        rcases List.mem_cons.mp hx with rfl | hx'
        · exact lt_of_le_of_lt (not_lt.mp h) hacc
        · exact h1 x hx'

theorem runSearch_spec (ct : List Char) (l : List Int) (hne : l ≠ []) :
    ∃ s0, s0 ∈ l ∧
      runSearch ct l = (shiftScore ct s0, s0, decipherWithShift ct s0) ∧
      ∀ x ∈ l, shiftScore ct x ≤ shiftScore ct s0 := by
  rw [runSearch_def]
  rcases foldl_bfStep_spec ct l ((-1 : ℚ), (0 : Int), ([] : List Char)) with
    ⟨_, hb⟩ | ⟨l1, s0, l2, hsplit, hres, _, h1, h2⟩
  · exfalso
    obtain ⟨x, hx⟩ := List.exists_mem_of_ne_nil l hne
    have hle := hb x hx
    simp only [] at hle
    have h0 := shiftScore_nonneg ct x
    linarith
  · refine ⟨s0, ?_, hres, ?_⟩
    · rw [hsplit]
      exact List.mem_append_right _ (List.mem_cons_self _ _)
    · intro x hx
      rw [hsplit] at hx
      rcases List.mem_append.mp hx with hx1 | hx2
      · exact le_of_lt (h1 x hx1)
      · rcases List.mem_cons.mp hx2 with rfl | hx'
        · exact le_refl _
        · exact h2 x hx'

/-! Folding `max` over the scores of all 26 shifts. -/

theorem le_foldl_max (l : List ℚ) (a : ℚ) : a ≤ l.foldl max a := by
  induction l generalizing a with
  | nil => exact le_refl a
  | cons b t ih =>
    rw [List.foldl_cons]
    exact le_trans (le_max_left a b) (ih _)

theorem mem_le_foldl_max (x : ℚ) (l : List ℚ) : ∀ a : ℚ, x ∈ l → x ≤ l.foldl max a := by
  induction l with
  | nil =>
    intro a hx
    simp at hx
  | cons b t ih =>
    intro a hx
    rw [List.foldl_cons]
    rcases List.mem_cons.mp hx with rfl | hx'
    · exact le_trans (le_max_right a x) (le_foldl_max t _)
    · exact ih _ hx'

theorem foldl_max_mem (l : List ℚ) : ∀ a : ℚ, l.foldl max a = a ∨ l.foldl max a ∈ l := by
  induction l with
  | nil =>
    intro a
    left
    rfl
  | cons b t ih =>
    intro a
    rw [List.foldl_cons]
    rcases ih (max a b) with heq | hmem
    · rcases max_choice a b with hab | hab
      · left
        rw [heq, hab]
      · right
        rw [heq, hab]
        exact List.mem_cons_self b t
    · right
      exact List.mem_cons_of_mem b hmem

theorem mem_shiftRange_iff (x : Int) : x ∈ shiftRange ↔ 0 ≤ x ∧ x ≤ 25 := by
  constructor
  · intro hx
    obtain ⟨n, hn, rfl⟩ := List.mem_map.mp hx
    have hn' := List.mem_range.mp hn
    omega
  · intro h
    refine List.mem_map.mpr ⟨x.toNat, List.mem_range.mpr ?_, ?_⟩ <;> omega

theorem shiftRange_ne_nil : shiftRange ≠ [] := by decide

theorem zero_mem_shiftRange : (0 : Int) ∈ shiftRange := by decide

theorem shiftScore_le_max (ct : List Char) {x : Int} (hx : x ∈ shiftRange) :
    shiftScore ct x ≤ maxShiftScore ct :=
  mem_le_foldl_max _ _ _ (List.mem_map_of_mem _ hx)

theorem max_attained_or_sentinel (ct : List Char) :
    maxShiftScore ct = -1 ∨ ∃ x ∈ shiftRange, maxShiftScore ct = shiftScore ct x := by
  rcases foldl_max_mem (shiftRange.map (shiftScore ct)) (-1) with h | h
  · left
    exact h
  · right
    obtain ⟨x, hx, hfx⟩ := List.mem_map.mp h
    exact ⟨x, hx, hfx.symm⟩

theorem runSearch_coverage (ct : List Char) (l : List Int) (hne : l ≠ [])
    (hmem : ∀ x : Int, x ∈ l ↔ x ∈ shiftRange) :
    scoreDecipheredText (runSearch ct l).2.2 = maxShiftScore ct := by
  obtain ⟨s0, hs0, hres, hbound⟩ := runSearch_spec ct l hne
  have h1 : scoreDecipheredText (runSearch ct l).2.2 = shiftScore ct s0 := by
    rw [hres]
    rfl
  rw [h1]
  apply le_antisymm
  · exact shiftScore_le_max ct ((hmem s0).mp hs0)
  · rcases max_attained_or_sentinel ct with h | ⟨x, hx, hxe⟩
    · rw [h]
      have := shiftScore_nonneg ct s0
      linarith
    · rw [hxe]
      exact hbound x ((hmem x).mpr hx)

/-! The frequency heuristic's candidate list is a permutation of 0..25. -/

theorem eShiftOf_mem (m : Char) : eShiftOf m ∈ shiftRange := by
  have h := normalizeShift_bounds ((m.toNat : Int) - ('E'.toNat : Int))
  rw [mem_shiftRange_iff]
  unfold eShiftOf
  omega

theorem bne_eq_decide_ne (x e : Int) : (decide (x ≠ e)) = (x != e) := by
  by_cases h : x = e <;> simp [h]

theorem potentialShifts_perm (m : Char) : (potentialShifts m).Perm shiftRange := by
  have he : eShiftOf m ∈ shiftRange := eShiftOf_mem m
  have hnd : shiftRange.Nodup := by decide
  have hfe : shiftRange.filter (fun x => decide (x ≠ eShiftOf m)) =
      shiftRange.erase (eShiftOf m) := by
    rw [List.Nodup.erase_eq_filter hnd]
    exact List.filter_congr (fun x _ => bne_eq_decide_ne x _)
  rw [potentialShifts_def, hfe]
  exact (List.perm_cons_erase he).symm

theorem potentialShifts_ne_nil (m : Char) : potentialShifts m ≠ [] := by
  rw [potentialShifts_def]
  exact List.cons_ne_nil _ _

/-- C2: Coverage equivalence — the candidate list of the frequency
strategy is a permutation of the shifts 0..25 (each present exactly
once, with no duplicate of the preferred shift even when it is 0), and
consequently both strategies return a plaintext achieving the maximum
score over all 26 shifts.  `m` ranges over every possible value of the
nondeterministically chosen most frequent ciphertext letter. -/
theorem freq_analysis_coverage_equivalence (ct : List Char) (m : Char) :
    (potentialShifts m).Perm shiftRange ∧
    scoreDecipheredText (breakCipherFrequencyAnalysisWith ct m).1 = maxShiftScore ct ∧
    scoreDecipheredText (breakCipherBruteForce ct).1 = maxShiftScore ct := by
  have hbf : scoreDecipheredText (breakCipherBruteForce ct).1 = maxShiftScore ct := by
    rw [breakCipherBruteForce_def]
    exact runSearch_coverage ct shiftRange shiftRange_ne_nil (fun x => Iff.rfl)
  refine ⟨potentialShifts_perm m, ?_, hbf⟩
  rw [breakFreq_def]
  by_cases h : (lettersOnly ct).length < 5
  · rw [if_pos h]
    exact hbf
  · rw [if_neg h]
    exact runSearch_coverage ct (potentialShifts m) (potentialShifts_ne_nil m)
      (fun x => (potentialShifts_perm m).mem_iff)

/-- C5: First-seen maximum tie policy — brute force returns the
deciphering for the smallest shift achieving the maximum score over
all 26 shifts: its plaintext is the deciphering at its shift, that
shift attains the maximum score, and every shift attaining the maximum
score is at least it (a later tie never replaces the running best,
since replacement requires a strictly greater score). -/
theorem brute_force_first_seen_max (ct : List Char) :
    (breakCipherBruteForce ct).1 = decipherWithShift ct (breakCipherBruteForce ct).2 ∧
    shiftScore ct (breakCipherBruteForce ct).2 = maxShiftScore ct ∧
    ∀ s ∈ shiftRange, shiftScore ct s = maxShiftScore ct →
      (breakCipherBruteForce ct).2 ≤ s := by
  rcases foldl_bfStep_spec ct shiftRange ((-1 : ℚ), (0 : Int), ([] : List Char)) with
    ⟨_, hb⟩ | ⟨l1, s0, l2, hsplit, hres, _, h1, h2⟩
  · exfalso
    have hle := hb 0 zero_mem_shiftRange
    simp only [] at hle
    have h0 := shiftScore_nonneg ct 0
    linarith
  · have hr : runSearch ct shiftRange = (shiftScore ct s0, s0, decipherWithShift ct s0) := by
      rw [runSearch_def]
      exact hres
    have hbf : breakCipherBruteForce ct = (decipherWithShift ct s0, s0) := by
      rw [breakCipherBruteForce_def, hr]
    have hs0mem : s0 ∈ shiftRange := by
      rw [hsplit]
      exact List.mem_append_right _ (List.mem_cons_self _ _)
    have hbound : ∀ x ∈ shiftRange, shiftScore ct x ≤ shiftScore ct s0 := by
      intro x hx
      rw [hsplit] at hx
      rcases List.mem_append.mp hx with hx1 | hx2
      · exact le_of_lt (h1 x hx1)
      · rcases List.mem_cons.mp hx2 with rfl | hx'
        · exact le_refl _
        · exact h2 x hx'
    have hmax : shiftScore ct s0 = maxShiftScore ct := by
      apply le_antisymm (shiftScore_le_max ct hs0mem)
      rcases max_attained_or_sentinel ct with h | ⟨x, hx, hxe⟩
      · rw [h]
        have := shiftScore_nonneg ct s0
        linarith
      · rw [hxe]
        exact hbound x hx
    rw [hbf]
    refine ⟨rfl, hmax, ?_⟩
    intro s hs hsmax
    have hsorted : List.Pairwise (fun a b => a < b) shiftRange := by decide
    rw [hsplit] at hsorted
    have hsub : (s0 :: l2).Sublist (l1 ++ s0 :: l2) := List.sublist_append_right l1 _
    have hp : List.Pairwise (fun a b => a < b) (s0 :: l2) :=
      List.Pairwise.sublist hsub hsorted
    have hlt : ∀ b ∈ l2, s0 < b := (List.pairwise_cons.mp hp).1
    rw [hsplit] at hs
    rcases List.mem_append.mp hs with hx1 | hx2
    · exfalso
      have := h1 s hx1
      rw [hsmax, hmax] at this
      exact lt_irrefl _ this
    · rcases List.mem_cons.mp hx2 with rfl | hx'
      · exact le_refl _
      · exact le_of_lt (hlt s hx')

/-- Witness for C5 at the concrete ciphertext WKH (THE shifted by 3). -/
theorem brute_force_first_seen_max_witness :
    (breakCipherBruteForce "WKH".toList).1 =
      decipherWithShift "WKH".toList (breakCipherBruteForce "WKH".toList).2 ∧
    shiftScore "WKH".toList (breakCipherBruteForce "WKH".toList).2 =
      maxShiftScore "WKH".toList ∧
    ∀ s ∈ shiftRange, shiftScore "WKH".toList s = maxShiftScore "WKH".toList →
      (breakCipherBruteForce "WKH".toList).2 ≤ s :=
  brute_force_first_seen_max "WKH".toList

/-- C6: Short-input fallback — on a ciphertext with fewer than 5 ASCII
letters the frequency strategy returns exactly the brute-force result,
whatever most-frequent letter the heuristic would have chosen. -/
theorem freq_analysis_short_input_fallback (ct : List Char) (m : Char)
    (h : (lettersOnly ct).length < 5) :
    breakCipherFrequencyAnalysisWith ct m = breakCipherBruteForce ct := by
  rw [breakFreq_def, if_pos h]

/-- Witness for C6 at the concrete ciphertext AB! (two letters). -/
theorem freq_analysis_short_input_fallback_witness :
    (lettersOnly "AB!".toList).length < 5 ∧
    breakCipherFrequencyAnalysisWith "AB!".toList 'A' =
      breakCipherBruteForce "AB!".toList :=
  ⟨by decide, freq_analysis_short_input_fallback "AB!".toList 'A' (by decide)⟩

theorem runSearch_consistent (ct : List Char) (l : List Int) (hne : l ≠ [])
    (hsub : ∀ x ∈ l, x ∈ shiftRange) :
    0 ≤ (runSearch ct l).2.1 ∧ (runSearch ct l).2.1 ≤ 25 ∧
    (runSearch ct l).2.2 = decipherWithShift ct (runSearch ct l).2.1 := by
  obtain ⟨s0, hs0, hres, _⟩ := runSearch_spec ct l hne
  have hb := (mem_shiftRange_iff s0).mp (hsub s0 hs0)
  rw [hres]
  exact ⟨hb.1, hb.2, rfl⟩

/-- C9: Implicit result consistency — both strategies return a shift
in the range 0..25 together with the deciphering of the ciphertext at
exactly that shift; the sentinel initial state never survives the
search.  `m` again ranges over every possible choice of the most
frequent letter. -/
theorem breakers_return_consistent_pair (ct : List Char) (m : Char) :
    0 ≤ (breakCipherBruteForce ct).2 ∧ (breakCipherBruteForce ct).2 ≤ 25 ∧
    (breakCipherBruteForce ct).1 = decipherWithShift ct (breakCipherBruteForce ct).2 ∧
    0 ≤ (breakCipherFrequencyAnalysisWith ct m).2 ∧
    (breakCipherFrequencyAnalysisWith ct m).2 ≤ 25 ∧
    (breakCipherFrequencyAnalysisWith ct m).1 =
      decipherWithShift ct (breakCipherFrequencyAnalysisWith ct m).2 := by
  have hbf := runSearch_consistent ct shiftRange shiftRange_ne_nil (fun x hx => hx)
  have hbf' : 0 ≤ (breakCipherBruteForce ct).2 ∧ (breakCipherBruteForce ct).2 ≤ 25 ∧
      (breakCipherBruteForce ct).1 =
        decipherWithShift ct (breakCipherBruteForce ct).2 := by
    rw [breakCipherBruteForce_def]
    exact hbf
  refine ⟨hbf'.1, hbf'.2.1, hbf'.2.2, ?_⟩
  rw [breakFreq_def]
  by_cases h : (lettersOnly ct).length < 5
  · rw [if_pos h]
    exact ⟨hbf'.1, hbf'.2.1, hbf'.2.2⟩
  · rw [if_neg h]
    have hfa := runSearch_consistent ct (potentialShifts m) (potentialShifts_ne_nil m)
      (fun x hx => ((potentialShifts_perm m).mem_iff).mp hx)
    exact hfa

end Caesar
